import Mathlib

/-!
Shallow embedding of the incremental build orchestrator
(`cmd/apis/main.go`, `internal/feature/feature_hash.go`, `internal/hash`,
`internal/cache`, `internal/config`), together with proofs about its
dependency resolution (`topoSort`), fingerprinting (`HashDir`,
`ComputeFeatureHash`) and orchestration loop (the body of `main`).

Modelling conventions:
* Go byte strings (file contents, commands, hex digests) are modelled as
  Lean `String`s; `sort.Strings` is byte-wise lexicographic, modelled by an
  insertion sort over the code-point order `strLe` (UTF-8 byte order and
  code-point order agree).
* The incremental hashing pattern `h := sha256.New(); h.Write a; ...;
  hex.EncodeToString (h.Sum nil)` is modelled as `shaHex (a ++ ...)` for a
  parameter `shaHex : String → String` standing for hex-encoded SHA-256 of
  everything written.  Theorems that need collision-freedom state it as an
  explicit injectivity hypothesis (the standard idealization of SHA-256).
* The filesystem is an association list from the input paths that appear in
  a feature's `inputs` to directory trees; files carry permission and
  mtime fields (which `filepath.Walk`-based hashing never reads) and a
  readability flag (an unreadable file makes `os.Open`/`io.Copy` fail).
* Fallible Go functions returning `(T, error)` become `Except String T`;
  runtime panics of the orchestration loop (nil-map dereference, index out
  of range) are explicit error values carrying the state at the moment of
  the crash.
-/

namespace Builder

/-! ### Byte-wise string order (Go `sort.Strings`) -/

/-- Lexicographic comparison of character streams by code point; this is the
order `sort.Strings` uses on Go strings (UTF-8 byte order coincides with
code-point order). -/
def strLeAux : List Char → List Char → Bool
  | [], _ => true
  | _ :: _, [] => false
  | a :: as, b :: bs =>
    if a.toNat < b.toNat then true
    else if b.toNat < a.toNat then false
    else strLeAux as bs

/-- Byte-wise lexicographic `≤` on strings. -/
def strLe (s t : String) : Bool := strLeAux s.data t.data

theorem charToNat_inj {a b : Char} (h : a.toNat = b.toNat) : a = b :=
  Char.ext_iff.mpr (UInt32.ext h)

theorem strLeAux_total (x y : List Char) : strLeAux x y = true ∨ strLeAux y x = true := by
  induction x generalizing y with
  | nil => left; rfl
  | cons a as ih =>
    cases y with
    | nil => right; rfl
    | cons b bs =>
      rcases Nat.lt_trichotomy a.toNat b.toNat with h | h | h
      · left; simp [strLeAux, h]
      · have h1 : ¬ a.toNat < b.toNat := by omega
        have h2 : ¬ b.toNat < a.toNat := by omega
        rcases ih bs with h3 | h3
        · left; simp [strLeAux, h1, h2, h3]
        · right; simp [strLeAux, h1, h2, h3]
      · right; simp [strLeAux, h, Nat.lt_asymm h]

theorem strLeAux_antisymm (x y : List Char) (h1 : strLeAux x y = true)
    (h2 : strLeAux y x = true) : x = y := by
  induction x generalizing y with
  | nil =>
    cases y with
    | nil => rfl
    | cons b bs => simp [strLeAux] at h2
  | cons a as ih =>
    cases y with
    | nil => simp [strLeAux] at h1
    | cons b bs =>
      rcases Nat.lt_trichotomy a.toNat b.toNat with h | h | h
      · simp [strLeAux, h, Nat.lt_asymm h] at h2
      · simp [strLeAux, h, Nat.lt_irrefl] at h1 h2
        have htail := ih bs h1 h2
        have hab : a = b := charToNat_inj h
        rw [hab, htail]
      · simp [strLeAux, h, Nat.lt_asymm h] at h1

theorem strLeAux_trans (x y z : List Char) (h1 : strLeAux x y = true)
    (h2 : strLeAux y z = true) : strLeAux x z = true := by
  induction x generalizing y z with
  | nil => rfl
  | cons a as ih =>
    cases y with
    | nil => simp [strLeAux] at h1
    | cons b bs =>
      cases z with
      | nil => simp [strLeAux] at h2
      | cons c cs =>
        rcases Nat.lt_trichotomy a.toNat b.toNat with hab | hab | hab
        · rcases Nat.lt_trichotomy b.toNat c.toNat with hbc | hbc | hbc
          · simp [strLeAux, Nat.lt_trans hab hbc]
          · have hlt : a.toNat < c.toNat := hbc ▸ hab
            simp [strLeAux, hlt]
          · simp [strLeAux, hbc, Nat.lt_asymm hbc] at h2
        · rcases Nat.lt_trichotomy b.toNat c.toNat with hbc | hbc | hbc
          · have hlt : a.toNat < c.toNat := hab ▸ hbc
            simp [strLeAux, hlt]
          · have hac : a.toNat = c.toNat := hab.trans hbc
            simp [strLeAux, hab, Nat.lt_irrefl] at h1
            simp [strLeAux, hbc, Nat.lt_irrefl] at h2
            simp [strLeAux, hac, Nat.lt_irrefl]
            exact ih bs cs h1 h2
          · simp [strLeAux, hbc, Nat.lt_asymm hbc] at h2
        · simp [strLeAux, hab, Nat.lt_asymm hab] at h1

/-- The byte-wise order as a relation, for use with `List.insertionSort`. -/
def strRel : String → String → Prop := fun a b => strLe a b = true

instance : DecidableRel strRel := fun _ _ => inferInstanceAs (Decidable (_ = true))

instance : IsTotal String strRel := ⟨fun a b => strLeAux_total a.data b.data⟩

instance : IsTrans String strRel := ⟨fun a b c => strLeAux_trans a.data b.data c.data⟩

instance : IsAntisymm String strRel := ⟨fun a b h1 h2 => by
  have h := strLeAux_antisymm a.data b.data h1 h2
  cases a; cases b; cases h; rfl⟩

/-- Model of Go `sort.Strings`: any correct sort of a linearly ordered list
is observably the ascending reordering, so an insertion sort is an exact
model of the standard library sort. -/
def sortStrings (l : List String) : List String := List.insertionSort strRel l

/-- Concatenation of a list of strings, modelling consecutive
`hash.Write`/`io.Copy` calls into one running SHA-256 state. -/
def strJoin : List String → String
  | [] => ""
  | s :: rest => s ++ strJoin rest

/-! ### Filesystem model and `HashDir` (`cmd/apis/main.go:20-52`) -/

/-- A directory tree.  Files carry their byte content, a permission word, an
mtime and a readability flag; `filepath.Walk` is only ever used to collect
the paths of non-directory entries, so permissions and mtimes are present in
the model but unread by the hashing code (exactly as in the source). -/
inductive FSNode where
  | file (content : String) (perm : Nat) (mtime : Nat) (readable : Bool)
  | dir (entries : List (String × FSNode))

/-- The filesystem visible to the program: an association from the root
paths mentioned in a feature's `inputs` to directory trees. -/
abbrev FS := List (String × FSNode)

mutual
/-- The files collected by `filepath.Walk dir`: every non-directory entry
under the tree, as (full path, content, readable).  Permissions, mtimes and
empty directories contribute nothing. -/
def walkFiles (path : String) : FSNode → List (String × String × Bool)
  | .file c _ _ r => [(path, c, r)]
  | .dir entries => walkEntries path entries

/-- Walk of a directory's entry list, prefixing names with the directory
path. -/
def walkEntries (path : String) : List (String × FSNode) → List (String × String × Bool)
  | [] => []
  | (name, node) :: rest => walkFiles (path ++ "/" ++ name) node ++ walkEntries path rest
end

/-- Order on walked files by their full path (`sort.Strings(files)` sorts the
collected path list; contents are then read back per path). -/
def pathRel : (String × String × Bool) → (String × String × Bool) → Prop :=
  fun a b => strLe a.1 b.1 = true

instance : DecidableRel pathRel := fun _ _ => inferInstanceAs (Decidable (_ = true))

instance : IsTotal (String × String × Bool) pathRel :=
  ⟨fun a b => strLeAux_total a.1.data b.1.data⟩

instance : IsTrans (String × String × Bool) pathRel :=
  ⟨fun a b c => strLeAux_trans a.1.data b.1.data c.1.data⟩

/-- `sort.Strings(files)` on the walked file list. -/
def sortByPath (l : List (String × String × Bool)) : List (String × String × Bool) :=
  List.insertionSort pathRel l

/-- The loop of `HashDir`: open each file in sorted order and stream its
bytes into the running hash (`io.Copy(h, file)`); an unreadable file aborts
with the open error.  `acc` is the byte stream written so far. -/
def streamFiles (shaHex : String → String) : List (String × String × Bool) → String →
    Except String String
  | [], acc => .ok (shaHex acc)
  | (p, c, readable) :: rest, acc =>
    if readable then streamFiles shaHex rest (acc ++ c)
    else .error ("open " ++ p)

/-- `HashDir` of `cmd/apis/main.go:20-52` (identically in the REST variant):
walk the tree rooted at `dir`, sort the file paths, then stream the raw
content of every file into a single SHA-256 state.  A missing root makes
`filepath.Walk` fail. -/
def HashDir (shaHex : String → String) (fs : FS) (dir : String) : Except String String :=
  match fs.lookup dir with
  | none => .error ("walk " ++ dir)
  | some root => streamFiles shaHex (sortByPath (walkFiles dir root)) ""

/-- `hash.HashString` of `internal/hash`: digest of one string. -/
def HashString (shaHex : String → String) (s : String) : String := shaHex s

/-- The loop of `internal/hash.HashDir`: for each file in sorted order,
digest its content independently (`HashFile`) and write the hex digest into
the combined hash state. -/
def perFileFold (shaHex : String → String) : List (String × String × Bool) → String →
    Except String String
  | [], acc => .ok (shaHex acc)
  | (p, c, readable) :: rest, acc =>
    if readable then perFileFold shaHex rest (acc ++ shaHex c)
    else .error ("open " ++ p)

/-- `HashDir` of `internal/hash` (used only via `internal/feature`, which no
binary in the repository calls): same walk and sort, but the combined digest
folds per-file digests instead of raw bytes. -/
def hashPkgHashDir (shaHex : String → String) (fs : FS) (dir : String) : Except String String :=
  match fs.lookup dir with
  | none => .error ("walk " ++ dir)
  | some root => perFileFold shaHex (sortByPath (walkFiles dir root)) ""

/-! ### Features and `ComputeFeatureHash` (`cmd/apis/main.go:55-77`) -/

/-- `config.Feature`: name (attached from the registry key), ordered input
paths, opaque build command, dependency names. -/
structure Feature where
  name : String
  inputs : List String
  command : String
  dependsOn : List String

/-- `config.BuilderConfig.Features` as an association list (Go map). -/
abbrev Registry := List (String × Feature)

/-- The input-directory loop of `ComputeFeatureHash`: fold the hex digest of
each input directory, in declared list order, into the byte stream `acc`
(which starts as the command bytes). -/
def hashInputs (shaHex : String → String) (fs : FS) : List String → String →
    Except String String
  | [], acc => .ok acc
  | input :: rest, acc =>
    match HashDir shaHex fs input with
    | .error e => .error e
    | .ok h => hashInputs shaHex fs rest (acc ++ h)

/-- `ComputeFeatureHash` of `cmd/apis/main.go:55-77`: write the command,
then each input directory's digest in list order, then the dependency
digests after `sort.Strings(depHashes)` — sorted by digest value, the names
are not passed in. -/
def ComputeFeatureHash (shaHex : String → String) (fs : FS) (feat : Feature)
    (depHashes : List String) : Except String String :=
  match hashInputs shaHex fs feat.inputs feat.command with
  | .error e => .error e
  | .ok acc => .ok (shaHex (acc ++ strJoin (sortStrings depHashes)))

/-- `strings.Join parts "|"`. -/
def strIntercalate (sep : String) : List String → String
  | [] => ""
  | [s] => s
  | s :: rest => s ++ sep ++ strIntercalate sep rest

/-- The input loop of `feature.ComputeFeatureHash`, appending each
directory digest to `parts`. -/
def featureHashInputs (shaHex : String → String) (fs : FS) : List String → List String →
    Except String (List String)
  | [], parts => .ok parts
  | input :: rest, parts =>
    match hashPkgHashDir shaHex fs input with
    | .error e => .error e
    | .ok h => featureHashInputs shaHex fs rest (parts ++ [h])

/-- `feature.ComputeFeatureHash` of `internal/feature/feature_hash.go`
(never called by either binary): parts are the digest of the command, the
per-directory digests of `internal/hash.HashDir`, and the strings
`name ++ digest` of the dependency map sorted by that concatenation; the
parts are joined with `"|"` and digested once more. -/
def featureComputeFeatureHash (shaHex : String → String) (fs : FS) (feat : Feature)
    (depHashes : List (String × String)) : Except String String :=
  match featureHashInputs shaHex fs feat.inputs [HashString shaHex feat.command] with
  | .error e => .error e
  | .ok parts =>
    let deps := sortStrings (depHashes.map (fun p => p.1 ++ p.2))
    .ok (HashString shaHex (strIntercalate "|" (parts ++ deps)))

/-! ### Dependency graph and `topoSort` (`cmd/apis/main.go:79-121`) -/

/-- The dependency graph built by `buildGraph`: name ↦ `dependsOn` list. -/
abbrev Graph := List (String × List String)

/-- `buildGraph` of `cmd/apis/main.go:79-87`. -/
def buildGraph (reg : Registry) : Graph := reg.map (fun p => (p.1, p.2.dependsOn))

/-- The keys of the graph (the registry's feature names). -/
def keys (g : Graph) : List String := g.map Prod.fst

/-- `graph[node]` in Go: the dependency list, or the zero value `nil` for a
missing key. -/
def depsOf (g : Graph) (x : String) : List String :=
  match g.lookup x with
  | some ds => ds
  | none => []

/-- The errors `topoSort` can produce.  `fuelOut` is an artifact of the
fuel-indexed embedding of the recursion; the fuel lemmas below show it never
occurs at the fuel `Resolve` supplies. -/
inductive TopoErr where
  | cycle (node : String)
  | unknown (dep : String)
  | fuelOut
deriving DecidableEq

/-- The `for _, dep := range graph[node]` loop of `topoSort`
(`cmd/apis/main.go:107-114`): check each dependency exists in the graph,
then recurse via `visit` (the recursive call with the extended in-progress
set), threading the visited set and output order. -/
def topoVisitDeps (g : Graph)
    (visit : String → List String → List String → Except TopoErr (List String × List String)) :
    List String → List String → List String → Except TopoErr (List String × List String)
  | [], visited, order => .ok (visited, order)
  | d :: rest, visited, order =>
    if (g.lookup d).isSome then
      match visit d visited order with
      | .error e => .error e
      | .ok (v, o) => topoVisitDeps g visit rest v o
    else .error (.unknown d)

/-- `topoSort` of `cmd/apis/main.go:89-121`.  `visited` is the done set,
`temp` the in-progress set (restored by the caller on success, so it is
passed down extended and not returned), and `order` the output accumulator;
the node is appended after all dependencies (post-order).  The Go recursion
has no fuel; the fuel argument only bounds the recursion depth and
`Resolve` supplies enough for it never to run out. -/
def topoSort : Nat → Graph → String → List String → List String → List String →
    Except TopoErr (List String × List String)
  | 0, _, _, _, _, _ => .error .fuelOut
  | fuel + 1, g, node, visited, temp, order =>
    if node ∈ temp then .error (.cycle node)
    else if node ∈ visited then .ok (visited, order)
    else
      match topoVisitDeps g (fun d v o => topoSort fuel g d v (node :: temp) o)
          (depsOf g node) visited order with
      | .error e => .error e
      | .ok (v, o) => .ok (node :: v, o ++ [node])

/-- The resolution entry point (`cmd/apis/main.go:161-165`): empty visited
and in-progress sets, empty order.  The fuel `g.length + 1` strictly exceeds
the number of graph keys, which bounds the depth of the Go recursion. -/
def Resolve (g : Graph) (target : String) : Except TopoErr (List String) :=
  match topoSort (g.length + 1) g target [] [] [] with
  | .error e => .error e
  | .ok (_, order) => .ok order

/-! ### Cache store (`internal/cache`) and the orchestration loop
(`cmd/apis/main.go:174-214`) -/

/-- `cache.ReadFeatureHash`: one record per feature name; a record that was
never written reads as an error (`os.ReadFile` on a missing path), which the
loop treats as a mismatch. -/
def ReadFeatureHash (cache : List (String × String)) (feature : String) : Option String :=
  cache.lookup feature

/-- The per-feature outcome printed by the loop. -/
inductive Decision where
  | SKIP
  | BUILD
deriving DecidableEq

/-- Abnormal terminations of the loop body.  `nilFeature` is the nil-map
dereference `feat.DependsOn` when the order contains a name absent from
`cfg.Features`; `emptyInputs` is the index-out-of-range panic at
`feat.Inputs[0]`; the other two are the explicit `os.Exit(1)` paths. -/
inductive RunErr where
  | nilFeature (f : String)
  | hashErrAt (f : String) (msg : String)
  | emptyInputs (f : String)
  | buildFailed (f : String)
deriving DecidableEq

/-- External collaborators and ambient state of one orchestration run:
the digest function, the filesystem, the result of each `docker build`
invocation, and whether each `cache.WriteFeatureHash` call succeeds. -/
structure Env where
  shaHex : String → String
  fs : FS
  buildOk : String → Bool
  writeOk : String → Bool

/-- Observable state of the loop: the persisted cache (`.builder-cache`),
the per-run map `hashCache`, the printed decisions, the `docker build`
invocations performed, and the cache writes attempted. -/
structure RunState where
  cache : List (String × String)
  hashCache : List (String × String)
  decisions : List (String × Decision)
  invocations : List String
  writes : List (String × String)

/-- The BUILD branch of the loop body (`cmd/apis/main.go:198-213`): print
BUILD, read `feat.Inputs[0]` for the docker context (panicking on an empty
slice), run `docker build` (aborting the run on failure), then attempt
`cache.WriteFeatureHash` — its error is discarded, so a failed write leaves
the cache unchanged but the loop continues — and record the fingerprint in
the per-run map. -/
def stepBuild (env : Env) (st : RunState) (fname : String) (feat : Feature)
    (newHash : String) : Except (RunErr × RunState) RunState :=
  let st1 : RunState := { st with decisions := st.decisions ++ [(fname, Decision.BUILD)] }
  match feat.inputs with
  | [] => .error (.emptyInputs fname, st1)
  | _ctx :: _ =>
    let st2 : RunState := { st1 with invocations := st1.invocations ++ [fname] }
    if env.buildOk fname then
      let st3 : RunState := { st2 with writes := st2.writes ++ [(fname, newHash)] }
      let cache2 := if env.writeOk fname then (fname, newHash) :: st3.cache else st3.cache
      .ok { st3 with cache := cache2, hashCache := (fname, newHash) :: st3.hashCache }
    else .error (.buildFailed fname, st2)

/-- One iteration of the loop over the build order
(`cmd/apis/main.go:175-214`): look the feature up (`cfg.Features[fname]` is
nil for an unknown name and the subsequent field access panics), gather the
dependency digests from the per-run map (Go map zero value `""` for a miss),
compute the fresh fingerprint, then compare with the persisted record:
present-and-equal prints SKIP and only updates the per-run map; anything
else takes the BUILD branch. -/
def step (env : Env) (reg : Registry) (st : RunState) (fname : String) :
    Except (RunErr × RunState) RunState :=
  match reg.lookup fname with
  | none => .error (.nilFeature fname, st)
  | some feat =>
    let depHashes := feat.dependsOn.map (fun dep => (st.hashCache.lookup dep).getD "")
    match ComputeFeatureHash env.shaHex env.fs feat depHashes with
    | .error msg => .error (.hashErrAt fname msg, st)
    | .ok newHash =>
      match ReadFeatureHash st.cache fname with
      | some oldHash =>
        if oldHash = newHash then
          .ok { st with decisions := st.decisions ++ [(fname, Decision.SKIP)],
                        hashCache := (fname, newHash) :: st.hashCache }
        else stepBuild env st fname feat newHash
      | none => stepBuild env st fname feat newHash

/-- The loop over the resolved build order; any error aborts the remaining
iterations immediately. -/
def runLoop (env : Env) (reg : Registry) : List String → RunState →
    Except (RunErr × RunState) RunState
  | [], st => .ok st
  | f :: rest, st =>
    match step env reg st f with
    | .error e => .error e
    | .ok st' => runLoop env reg rest st'

/-- The state at the start of a run: the persisted cache survives from the
previous run, everything else is empty. -/
def initState (cache0 : List (String × String)) : RunState :=
  { cache := cache0, hashCache := [], decisions := [], invocations := [], writes := [] }

/-- Errors of a whole run: resolution errors or loop errors. -/
inductive BuildErr where
  | depErr (e : TopoErr)
  | runErr (e : RunErr)
deriving DecidableEq

/-- One whole orchestration run (`main` after config loading): resolve the
target, then iterate the build order. -/
def runBuild (env : Env) (reg : Registry) (target : String)
    (cache0 : List (String × String)) : Except BuildErr RunState :=
  match Resolve (buildGraph reg) target with
  | .error e => .error (.depErr e)
  | .ok order =>
    match runLoop env reg order (initState cache0) with
    | .error (e, _) => .error (.runErr e)
    | .ok st => .ok st

/-- The decisions printed by a loop step, including the prints that happen
before an abnormal termination. -/
def stepDecisions (r : Except (RunErr × RunState) RunState) : List (String × Decision) :=
  match r with
  | .ok st => st.decisions
  | .error (_, st) => st.decisions

/-! ### Specification notions used by the theorems -/

/-- Reflexive-transitive reachability along `dependsOn` edges. -/
inductive Reaches (g : Graph) : String → String → Prop
  | refl (x : String) : Reaches g x x
  | step {x d y : String} : d ∈ depsOf g x → Reaches g d y → Reaches g x y

/-- Nonempty dependency paths (`DepPath g x y`: at least one edge from `x`
to `y`). -/
inductive DepPath (g : Graph) : String → String → Prop
  | single {x d : String} : d ∈ depsOf g x → DepPath g x d
  | cons {x d y : String} : d ∈ depsOf g x → DepPath g d y → DepPath g x y

/-- The registry invariant of §3 of the spec: every name in any `dependsOn`
list is a key of the registry. -/
def Closed (g : Graph) : Prop := ∀ p ∈ g, ∀ d ∈ p.2, d ∈ keys g

/-- No node lies on a dependency cycle. -/
def Acyclic (g : Graph) : Prop := ∀ x, ¬ DepPath g x x

/-- Invariant tying the visited set and the output order of `topoSort`:
same elements, no duplicates, closed under dependencies, no self edges,
every dependency strictly earlier than its dependent (the `Pairwise` field
forbids an edge from an earlier element to a later one), and every
dependency of an emitted node passed the registry-membership check. -/
structure TState (g : Graph) (visited order : List String) : Prop where
  mem_iff : ∀ x, x ∈ visited ↔ x ∈ order
  nodup : order.Nodup
  depsIn : ∀ a ∈ order, ∀ d ∈ depsOf g a, d ∈ order
  noSelf : ∀ a ∈ order, a ∉ depsOf g a
  pairwise : order.Pairwise (fun x y => y ∉ depsOf g x)
  checked : ∀ a ∈ order, ∀ d ∈ depsOf g a, (g.lookup d).isSome = true

/-! ### Concrete scenario used by several counterexamples and witnesses -/

/-- A concrete injective stand-in for hex-encoded SHA-256: length-prefixing
makes it injective, which real SHA-256 is only in the idealized
collision-free sense. -/
def cSha (s : String) : String := toString s.length ++ "#" ++ s

/-- Order on (dependency name, fingerprint) pairs by the name component. -/
def nameRel : (String × String) → (String × String) → Prop :=
  fun a b => strLe a.1 b.1 = true

instance : DecidableRel nameRel := fun _ _ => inferInstanceAs (Decidable (_ = true))

/-- Modelled from the spec (§4.2, step 3): the combining rule as the spec
describes it, with the dependency fingerprints sorted by the dependency's
feature name (not by fingerprint value) before being folded in after the
command and input-directory digests.  `ComputeFeatureHash` — the code —
receives only the fingerprint values and sorts those; this definition is
the comparison point for that refinement claim. -/
def ComputeFeatureHashNameSorted (shaHex : String → String) (fs : FS) (feat : Feature)
    (depHashes : List (String × String)) : Except String String :=
  match hashInputs shaHex fs feat.inputs feat.command with
  | .error e => .error e
  | .ok acc =>
    .ok (shaHex (acc ++ strJoin ((List.insertionSort nameRel depHashes).map Prod.snd)))

/-- Two-feature acyclic registry graph used to witness resolution claims. -/
def c1g : Graph := [("app", ["base"]), ("base", [])]

/-- Two-feature cyclic registry graph (`a` and `b` depend on each other). -/
def c6g : Graph := [("a", ["b"]), ("b", ["a"])]

/-- Scenario for the dependency-change propagation claim: `x` and `y` are
leaves whose input directories swap contents between two runs; `f` depends
on both. -/
def c2x : Feature := ⟨"x", ["px"], "A", []⟩

def c2y : Feature := ⟨"y", ["py"], "A", []⟩

def c2f : Feature := ⟨"f", ["pf"], "B", ["x", "y"]⟩

def c2reg : Registry := [("x", c2x), ("y", c2y), ("f", c2f)]

def c2fs1 : FS := [("px", .dir [("u", .file "0" 420 1 true)]),
                   ("py", .dir [("u", .file "1" 420 1 true)]),
                   ("pf", .dir [("u", .file "w" 420 1 true)])]

/-- The same filesystem after swapping the contents of `px` and `py`. -/
def c2fs2 : FS := [("px", .dir [("u", .file "1" 420 2 true)]),
                   ("py", .dir [("u", .file "0" 420 2 true)]),
                   ("pf", .dir [("u", .file "w" 420 1 true)])]

def c2env1 : Env := ⟨cSha, c2fs1, fun _ => true, fun _ => true⟩

def c2env2 : Env := ⟨cSha, c2fs2, fun _ => true, fun _ => true⟩

/-- The cache persisted by the first run of the swap scenario. -/
def c2cache1 : List (String × String) :=
  match runBuild c2env1 c2reg "f" [] with
  | .ok st => st.cache
  | .error _ => []

/-! ### Association-list and filter lemmas -/

theorem lookup_mem {g : Graph} {a : String} {ds : List String}
    (h : g.lookup a = some ds) : (a, ds) ∈ g := by
  induction g with
  | nil => simp [List.lookup] at h
  | cons p rest ih =>
    rw [List.lookup] at h
    cases hb : a == p.1 with
    | true =>
      rw [hb] at h; simp at h
      have heq := beq_iff_eq.mp hb
      have hpair : (a, ds) = p := by cases p; simp at heq h ⊢; exact ⟨heq, h.symm⟩
      rw [hpair]; exact List.mem_cons_self p rest
    | false => rw [hb] at h; simp at h; right; exact ih h

theorem lookup_isSome_iff {g : Graph} {a : String} :
    (g.lookup a).isSome = true ↔ a ∈ keys g := by
  induction g with
  | nil => simp [List.lookup, keys]
  | cons p rest ih =>
    rw [List.lookup]
    cases hb : a == p.1 with
    | true =>
      have heq := beq_iff_eq.mp hb
      simp [keys, heq]
    | false =>
      have hne := ne_of_beq_false hb
      simp only [keys, List.map_cons, List.mem_cons]
      constructor
      · intro h; right; exact (ih.mp h)
      · intro h
        rcases h with h | h
        · exact absurd h hne
        · exact ih.mpr h

theorem lookup_none_of_not_mem {g : Graph} {a : String} (h : a ∉ keys g) :
    g.lookup a = none := by
  cases hl : g.lookup a with
  | none => rfl
  | some ds =>
    exfalso
    exact h (lookup_isSome_iff.mp (by rw [hl]; rfl))

theorem mem_keys_of_lookup_some {g : Graph} {a : String} {ds : List String}
    (h : g.lookup a = some ds) : a ∈ keys g :=
  lookup_isSome_iff.mp (by rw [h]; rfl)

theorem depsOf_nonempty_mem_keys {g : Graph} {a : String}
    (h : depsOf g a ≠ []) : a ∈ keys g := by
  unfold depsOf at h
  cases hl : g.lookup a with
  | none => rw [hl] at h; simp at h
  | some ds => exact mem_keys_of_lookup_some hl

theorem closed_deps {g : Graph} (hc : Closed g) {a d : String}
    (hd : d ∈ depsOf g a) : d ∈ keys g := by
  unfold depsOf at hd
  cases hl : g.lookup a with
  | none => rw [hl] at hd; simp at hd
  | some ds =>
    rw [hl] at hd
    exact hc (a, ds) (lookup_mem hl) d hd

theorem filter_length_mono {α : Type} (p q : α → Bool)
    (h : ∀ b, p b = true → q b = true) (l : List α) :
    (l.filter p).length ≤ (l.filter q).length := by
  induction l with
  | nil => simp
  | cons x xs ih =>
    by_cases hp : p x = true
    · rw [List.filter_cons_of_pos hp, List.filter_cons_of_pos (h x hp)]
      simpa using ih
    · rw [List.filter_cons_of_neg (by simpa using hp)]
      cases hq : q x with
      | true =>
        rw [List.filter_cons_of_pos hq]
        exact le_trans ih (Nat.le_succ _)
      | false =>
        rw [List.filter_cons_of_neg (by simp [hq])]
        exact ih

theorem filter_cons_length_lt (l : List String) (a : String) (temp : List String)
    (ha : a ∈ l) (hat : a ∉ temp) :
    (l.filter (fun x => decide (x ∉ a :: temp))).length <
      (l.filter (fun x => decide (x ∉ temp))).length := by
  induction l with
  | nil => simp at ha
  | cons x xs ih =>
    have hmono : ∀ b : String, decide (b ∉ a :: temp) = true → decide (b ∉ temp) = true := by
      intro b hb
      simp only [decide_eq_true_eq] at hb ⊢
      intro hbt
      exact hb (List.mem_cons_of_mem a hbt)
    by_cases hx : x = a
    · subst hx
      rw [List.filter_cons_of_neg (by simp), List.filter_cons_of_pos (by simpa using hat)]
      exact Nat.lt_succ_of_le (filter_length_mono _ _ hmono xs)
    · have ha' : a ∈ xs := by
        rcases ha with _ | h
        · exact absurd rfl (Ne.symm hx)
        · assumption
      by_cases hxt : x ∈ temp
      · rw [List.filter_cons_of_neg (by simp [hxt]),
            List.filter_cons_of_neg (by simp [hxt])]
        exact ih ha'
      · rw [List.filter_cons_of_pos (by simp [hxt, hx]),
            List.filter_cons_of_pos (by simpa using hxt)]
        exact Nat.succ_lt_succ (ih ha')

/-! ### Path lemmas -/

theorem DepPath.trans {g : Graph} {a b c : String}
    (h1 : DepPath g a b) (h2 : DepPath g b c) : DepPath g a c := by
  induction h1 with
  | single h => exact DepPath.cons h h2
  | cons h _ ih => exact DepPath.cons h (ih h2)

theorem chain_mem_depPath {g : Graph} {node : String} {temp : List String}
    (hc : List.Chain (fun x y => x ∈ depsOf g y) node temp) :
    ∀ x ∈ temp, DepPath g x node := by
  induction temp generalizing node with
  | nil => intro x hx; simp at hx
  | cons t rest ih =>
    cases hc with
    | cons hR hrest =>
      intro x hx
      rcases List.mem_cons.mp hx with hx | hx
      · rw [hx]; exact DepPath.single hR
      · exact (ih hrest x hx).trans (DepPath.single hR)

theorem acyclic_of_rank (g : Graph) (rank : String → Nat)
    (h : ∀ a d, d ∈ depsOf g a → rank d < rank a) : Acyclic g := by
  have hp : ∀ a b, DepPath g a b → rank b < rank a := by
    intro a b hab
    induction hab with
    | single h1 => exact h _ _ h1
    | cons h1 _ ih => exact lt_trans ih (h _ _ h1)
  intro x hx
  exact lt_irrefl _ (hp x x hx)

/-! ### `TState` lemmas -/

theorem tstate_nil (g : Graph) : TState g [] [] := by
  refine ⟨?_, ?_, ?_, ?_, ?_, ?_⟩ <;> simp

theorem tstate_split {g : Graph} {v o : List String} (ts : TState g v o)
    {l1 l2 : List String} {a : String} (hsplit : o = l1 ++ a :: l2)
    {d : String} (hd : d ∈ depsOf g a) : d ∈ l1 := by
  have ha : a ∈ o := by rw [hsplit]; exact List.mem_append_right _ (List.mem_cons_self a l2)
  have hdo : d ∈ o := ts.depsIn a ha d hd
  rw [hsplit] at hdo
  rcases List.mem_append.mp hdo with h | h
  · exact h
  · rcases List.mem_cons.mp h with h | h
    · rw [h] at hd
      exact absurd hd (ts.noSelf a ha)
    · exfalso
      have hpw := ts.pairwise
      rw [hsplit, List.pairwise_append] at hpw
      exact (List.pairwise_cons.mp hpw.2.1).1 d h hd

theorem depPath_before {g : Graph} {v o : List String} (ts : TState g v o) :
    ∀ a b, DepPath g a b → ∀ l1 l2, o = l1 ++ a :: l2 → b ∈ l1 := by
  intro a b hab
  induction hab with
  | single h1 => intro l1 l2 hsplit; exact tstate_split ts hsplit h1
  | @cons x d y h1 hrest ih =>
    intro l1 l2 hsplit
    have hd : d ∈ l1 := tstate_split ts hsplit h1
    obtain ⟨p, q, hl1⟩ := List.append_of_mem hd
    have hsplit2 : o = p ++ d :: (q ++ x :: l2) := by
      rw [hsplit, hl1]; simp
    have hb := ih p (q ++ x :: l2) hsplit2
    rw [hl1]
    exact List.mem_append_left _ hb

theorem tstate_no_depPath {g : Graph} {v o : List String} (ts : TState g v o)
    {a : String} (ha : a ∈ o) (hp : DepPath g a a) : False := by
  obtain ⟨l1, l2, hsplit⟩ := List.append_of_mem ha
  have hmem : a ∈ l1 := depPath_before ts a a hp l1 l2 hsplit
  have hnd := ts.nodup
  rw [hsplit, List.nodup_append] at hnd
  exact hnd.2.2 hmem (List.mem_cons_self a l2)

theorem reach_closure {g : Graph} (S : String → Prop)
    (hS : ∀ a, S a → ∀ d ∈ depsOf g a, S d) :
    ∀ a b, Reaches g a b → S a → S b := by
  intro a b hab
  induction hab with
  | refl x => exact id
  | step h1 _ ih => intro hSa; exact ih (hS _ hSa _ h1)

/-! ### Correctness of the `topoSort` traversal -/

theorem topoVisitDeps_ok_spec (g : Graph)
    (visit : String → List String → List String → Except TopoErr (List String × List String))
    (P : String → Prop) :
    ∀ (deps visited order v' o' : List String),
    (∀ d ∈ deps, ∀ visited order v' o', visit d visited order = .ok (v', o') →
        TState g visited order →
        TState g v' o' ∧ (∀ x ∈ visited, x ∈ v') ∧ d ∈ v' ∧
          (∀ x ∈ v', x ∈ visited ∨ (Reaches g d x ∧ P x)) ∧
          (∃ delta, o' = order ++ delta)) →
    topoVisitDeps g visit deps visited order = .ok (v', o') →
    TState g visited order →
    TState g v' o' ∧ (∀ x ∈ visited, x ∈ v') ∧
      (∀ d ∈ deps, (g.lookup d).isSome = true ∧ d ∈ v') ∧
      (∀ x ∈ v', x ∈ visited ∨ ∃ d ∈ deps, (Reaches g d x ∧ P x)) ∧
      (∃ delta, o' = order ++ delta) := by
  intro deps
  induction deps with
  | nil =>
    intro visited order v' o' _ h ts
    simp only [topoVisitDeps, Except.ok.injEq, Prod.mk.injEq] at h
    obtain ⟨h1, h2⟩ := h
    subst h1; subst h2
    exact ⟨ts, fun _ hx => hx, by simp, fun x hx => Or.inl hx, ⟨[], by simp⟩⟩
  | cons d rest ih =>
    intro visited order v' o' hvisit h ts
    simp only [topoVisitDeps] at h
    by_cases hl : (g.lookup d).isSome = true
    · rw [if_pos hl] at h
      cases hv : visit d visited order with
      | error e => rw [hv] at h; simp at h
      | ok p =>
        obtain ⟨v1, o1⟩ := p
        rw [hv] at h
        simp only at h
        obtain ⟨ts1, hsub1, hd1, hsound1, ⟨d1, hpre1⟩⟩ :=
          hvisit d (List.mem_cons_self d rest) visited order v1 o1 hv ts
        obtain ⟨ts2, hsub2, hdeps2, hsound2, ⟨d2, hpre2⟩⟩ :=
          ih v1 o1 v' o' (fun d' hd' => hvisit d' (List.mem_cons_of_mem d hd')) h ts1
        refine ⟨ts2, fun x hx => hsub2 x (hsub1 x hx), ?_, ?_, ⟨d1 ++ d2, ?_⟩⟩
        · intro d' hd'
          rcases List.mem_cons.mp hd' with hd' | hd'
          · subst hd'; exact ⟨hl, hsub2 _ hd1⟩
          · exact hdeps2 d' hd'
        · intro x hx
          rcases hsound2 x hx with hx1 | ⟨d', hd', hr, hP⟩
          · rcases hsound1 x hx1 with hx0 | ⟨hr, hP⟩
            · exact Or.inl hx0
            · exact Or.inr ⟨d, List.mem_cons_self d rest, hr, hP⟩
          · exact Or.inr ⟨d', List.mem_cons_of_mem d hd', hr, hP⟩
        · rw [hpre2, hpre1, List.append_assoc]
    · rw [if_neg hl] at h; simp at h

theorem topoSort_ok_spec :
    ∀ (fuel : Nat) (g : Graph) (node : String) (visited temp order v' o' : List String),
    topoSort fuel g node visited temp order = .ok (v', o') →
    TState g visited order →
    TState g v' o' ∧ (∀ x ∈ visited, x ∈ v') ∧ node ∈ v' ∧
      (∀ x ∈ v', x ∈ visited ∨ (Reaches g node x ∧ x ∉ temp)) ∧
      (∃ delta, o' = order ++ delta) := by
  intro fuel
  induction fuel with
  | zero => intro g node visited temp order v' o' h _; simp [topoSort] at h
  | succ fuel ih =>
    intro g node visited temp order v' o' h ts
    simp only [topoSort] at h
    by_cases h1 : node ∈ temp
    · rw [if_pos h1] at h; simp at h
    · rw [if_neg h1] at h
      by_cases h2 : node ∈ visited
      · rw [if_pos h2] at h
        simp only [Except.ok.injEq, Prod.mk.injEq] at h
        obtain ⟨hv, ho⟩ := h
        subst hv; subst ho
        exact ⟨ts, fun _ hx => hx, h2, fun x hx => Or.inl hx, ⟨[], by simp⟩⟩
      · rw [if_neg h2] at h
        cases hvd : topoVisitDeps g (fun d v o => topoSort fuel g d v (node :: temp) o)
            (depsOf g node) visited order with
        | error e => rw [hvd] at h; simp at h
        | ok p =>
          obtain ⟨v2, o2⟩ := p
          rw [hvd] at h
          simp only [Except.ok.injEq, Prod.mk.injEq] at h
          obtain ⟨hv', ho'⟩ := h
          obtain ⟨ts2, hsub, hdeps, hsound, ⟨delta, hpre⟩⟩ :=
            topoVisitDeps_ok_spec g _ (fun x => x ∉ node :: temp) (depsOf g node)
              visited order v2 o2
              (fun d _ visited' order' v'' o'' hcall ts' =>
                ih g d visited' (node :: temp) order' v'' o'' hcall ts')
              hvd ts
          have hnode_nv2 : node ∉ v2 := by
            intro hmem
            rcases hsound node hmem with hc | ⟨_, _, _, hnt⟩
            · exact h2 hc
            · exact hnt (List.mem_cons_self node temp)
          have hnode_no2 : node ∉ o2 := fun hmem => hnode_nv2 ((ts2.mem_iff node).mpr hmem)
          subst hv'; subst ho'
          refine ⟨⟨?_, ?_, ?_, ?_, ?_, ?_⟩, ?_, ?_, ?_, ⟨delta ++ [node], ?_⟩⟩
          · intro x
            simp only [List.mem_cons, List.mem_append, List.mem_singleton]
            rw [show (x ∈ v2) = (x ∈ o2) from propext (ts2.mem_iff x)]
            tauto
          · rw [List.nodup_append]
            refine ⟨ts2.nodup, List.nodup_singleton _, ?_⟩
            intro x hx hx2
            simp at hx2
            subst hx2
            exact hnode_no2 hx
          · intro a ha d hd
            rcases List.mem_append.mp ha with ha | ha
            · exact List.mem_append_left _ (ts2.depsIn a ha d hd)
            · simp at ha
              subst ha
              exact List.mem_append_left _ ((ts2.mem_iff d).mp (hdeps d hd).2)
          · intro a ha
            rcases List.mem_append.mp ha with ha | ha
            · exact ts2.noSelf a ha
            · simp at ha
              subst ha
              intro hmem
              exact hnode_nv2 (hdeps a hmem).2
          · rw [List.pairwise_append]
            refine ⟨ts2.pairwise, List.pairwise_singleton _ _, ?_⟩
            intro x hx y hy
            simp at hy
            subst hy
            intro hmem
            exact hnode_no2 (ts2.depsIn x hx y hmem)
          · intro a ha d hd
            rcases List.mem_append.mp ha with ha | ha
            · exact ts2.checked a ha d hd
            · simp at ha
              subst ha
              exact (hdeps d hd).1
          · exact fun x hx => List.mem_cons_of_mem node (hsub x hx)
          · exact List.mem_cons_self node v2
          · intro x hx
            rcases List.mem_cons.mp hx with hx | hx
            · subst hx
              exact Or.inr ⟨Reaches.refl x, h1⟩
            · rcases hsound x hx with hx0 | ⟨d, hd, hr, hP⟩
              · exact Or.inl hx0
              · exact Or.inr ⟨Reaches.step hd hr, fun ht => hP (List.mem_cons_of_mem node ht)⟩
          · rw [hpre, List.append_assoc]

theorem topoVisitDeps_succeeds (g : Graph)
    (visit : String → List String → List String → Except TopoErr (List String × List String)) :
    ∀ (deps : List String),
    (∀ d ∈ deps, (g.lookup d).isSome = true) →
    (∀ d ∈ deps, ∀ visited order, TState g visited order →
        ∃ v' o', visit d visited order = .ok (v', o')) →
    (∀ d ∈ deps, ∀ visited order v' o', visit d visited order = .ok (v', o') →
        TState g visited order → TState g v' o') →
    ∀ visited order, TState g visited order →
    ∃ v' o', topoVisitDeps g visit deps visited order = .ok (v', o') := by
  intro deps
  induction deps with
  | nil => intro _ _ _ visited order _; exact ⟨visited, order, rfl⟩
  | cons d rest ih =>
    intro hlk hsucc hpres visited order ts
    obtain ⟨v1, o1, hv⟩ := hsucc d (List.mem_cons_self d rest) visited order ts
    have ts1 := hpres d (List.mem_cons_self d rest) visited order v1 o1 hv ts
    obtain ⟨v', o', hrest⟩ :=
      ih (fun d' hd' => hlk d' (List.mem_cons_of_mem d hd'))
        (fun d' hd' => hsucc d' (List.mem_cons_of_mem d hd'))
        (fun d' hd' => hpres d' (List.mem_cons_of_mem d hd')) v1 o1 ts1
    refine ⟨v', o', ?_⟩
    simp only [topoVisitDeps]
    rw [if_pos (hlk d (List.mem_cons_self d rest)), hv]
    exact hrest

theorem topoSort_succeeds :
    ∀ (fuel : Nat) (g : Graph) (node : String) (visited temp order : List String),
    Closed g → Acyclic g →
    ((keys g).filter (fun x => decide (x ∉ temp))).length < fuel →
    List.Chain (fun x y => x ∈ depsOf g y) node temp →
    TState g visited order →
    ∃ v' o', topoSort fuel g node visited temp order = .ok (v', o') := by
  intro fuel
  induction fuel with
  | zero => intro g node visited temp order _ _ hb _ _; exact absurd hb (Nat.not_lt_zero _)
  | succ fuel ih =>
    intro g node visited temp order hcl hac hb hch ts
    have h1 : node ∉ temp := by
      intro hmem
      exact hac node (chain_mem_depPath hch node hmem)
    by_cases h2 : node ∈ visited
    · exact ⟨visited, order, by simp only [topoSort]; rw [if_neg h1, if_pos h2]⟩
    · have hlk : ∀ d ∈ depsOf g node, (g.lookup d).isSome = true := by
        intro d hd
        exact lookup_isSome_iff.mpr (closed_deps hcl hd)
      have hsucc : ∀ d ∈ depsOf g node, ∀ visited' order', TState g visited' order' →
          ∃ v' o', topoSort fuel g d visited' (node :: temp) order' = .ok (v', o') := by
        intro d hd visited' order' ts'
        have hnk : node ∈ keys g :=
          depsOf_nonempty_mem_keys (by intro he; rw [he] at hd; simp at hd)
        have hlt := filter_cons_length_lt (keys g) node temp hnk h1
        exact ih g d visited' (node :: temp) order' hcl hac (by omega)
          (List.Chain.cons hd hch) ts'
      have hpres : ∀ d ∈ depsOf g node, ∀ visited' order' v' o',
          topoSort fuel g d visited' (node :: temp) order' = .ok (v', o') →
          TState g visited' order' → TState g v' o' := by
        intro d _ visited' order' v' o' hcall ts'
        exact (topoSort_ok_spec fuel g d visited' (node :: temp) order' v' o' hcall ts').1
      obtain ⟨v2, o2, hvd⟩ :=
        topoVisitDeps_succeeds g _ (depsOf g node) hlk hsucc hpres visited order ts
      refine ⟨node :: v2, o2 ++ [node], ?_⟩
      simp only [topoSort]
      rw [if_neg h1, if_neg h2, hvd]

theorem topoVisitDeps_error_elim (g : Graph)
    (visit : String → List String → List String → Except TopoErr (List String × List String)) :
    ∀ (deps visited order : List String) (e : TopoErr),
    topoVisitDeps g visit deps visited order = .error e →
    (∃ d ∈ deps, g.lookup d = none ∧ e = .unknown d) ∨
      (∃ d ∈ deps, ∃ v o, visit d v o = .error e) := by
  intro deps
  induction deps with
  | nil => intro visited order e h; simp [topoVisitDeps] at h
  | cons d rest ih =>
    intro visited order e h
    simp only [topoVisitDeps] at h
    by_cases hl : (g.lookup d).isSome = true
    · rw [if_pos hl] at h
      cases hv : visit d visited order with
      | error e' =>
        rw [hv] at h
        simp only [Except.error.injEq] at h
        subst h
        exact Or.inr ⟨d, List.mem_cons_self d rest, visited, order, hv⟩
      | ok p =>
        obtain ⟨v1, o1⟩ := p
        rw [hv] at h
        rcases ih v1 o1 e h with h' | h'
        · obtain ⟨d', hd', ha, hb'⟩ := h'
          exact Or.inl ⟨d', List.mem_cons_of_mem d hd', ha, hb'⟩
        · obtain ⟨d', hd', h'⟩ := h'
          exact Or.inr ⟨d', List.mem_cons_of_mem d hd', h'⟩
    · rw [if_neg hl] at h
      simp only [Except.error.injEq] at h
      exact Or.inl ⟨d, List.mem_cons_self d rest,
        Option.not_isSome_iff_eq_none.mp (by simpa using hl), h.symm⟩

theorem topoSort_ne_fuelOut :
    ∀ (fuel : Nat) (g : Graph) (node : String) (visited temp order : List String),
    ((keys g).filter (fun x => decide (x ∉ temp))).length < fuel →
    topoSort fuel g node visited temp order ≠ .error .fuelOut := by
  intro fuel
  induction fuel with
  | zero => intro g node visited temp order hb; exact absurd hb (Nat.not_lt_zero _)
  | succ fuel ih =>
    intro g node visited temp order hb h
    simp only [topoSort] at h
    by_cases h1 : node ∈ temp
    · rw [if_pos h1] at h; simp at h
    · rw [if_neg h1] at h
      by_cases h2 : node ∈ visited
      · rw [if_pos h2] at h; simp at h
      · rw [if_neg h2] at h
        cases hvd : topoVisitDeps g (fun d v o => topoSort fuel g d v (node :: temp) o)
            (depsOf g node) visited order with
        | ok p => obtain ⟨v, o⟩ := p; rw [hvd] at h; simp at h
        | error e =>
          rw [hvd] at h
          simp only [Except.error.injEq] at h
          subst h
          rcases topoVisitDeps_error_elim g _ (depsOf g node) visited order _ hvd with h' | h'
          · obtain ⟨d, _, _, habs⟩ := h'
            simp at habs
          · obtain ⟨d, hd, v, o, hcall⟩ := h'
            have hnk : node ∈ keys g :=
              depsOf_nonempty_mem_keys (by intro he; rw [he] at hd; simp at hd)
            have hlt := filter_cons_length_lt (keys g) node temp hnk h1
            exact ih g d v (node :: temp) o (by omega) hcall

theorem topoSort_no_unknown :
    ∀ (fuel : Nat) (g : Graph) (node : String) (visited temp order : List String) (d0 : String),
    Closed g →
    topoSort fuel g node visited temp order ≠ .error (.unknown d0) := by
  intro fuel
  induction fuel with
  | zero => intro g node visited temp order d0 _ h; simp [topoSort] at h
  | succ fuel ih =>
    intro g node visited temp order d0 hcl h
    simp only [topoSort] at h
    by_cases h1 : node ∈ temp
    · rw [if_pos h1] at h; simp at h
    · rw [if_neg h1] at h
      by_cases h2 : node ∈ visited
      · rw [if_pos h2] at h; simp at h
      · rw [if_neg h2] at h
        cases hvd : topoVisitDeps g (fun d v o => topoSort fuel g d v (node :: temp) o)
            (depsOf g node) visited order with
        | ok p => obtain ⟨v, o⟩ := p; rw [hvd] at h; simp at h
        | error e =>
          rw [hvd] at h
          simp only [Except.error.injEq] at h
          subst h
          rcases topoVisitDeps_error_elim g _ (depsOf g node) visited order _ hvd with h' | h'
          · obtain ⟨d, hd, hnone, _⟩ := h'
            have : (g.lookup d).isSome = true := lookup_isSome_iff.mpr (closed_deps hcl hd)
            rw [hnone] at this
            simp at this
          · obtain ⟨d, _, v, o, hcall⟩ := h'
            exact ih g d v (node :: temp) o d0 hcl hcall

theorem topoSort_unknown_missing :
    ∀ (fuel : Nat) (g : Graph) (node : String) (visited temp order : List String) (d0 : String),
    topoSort fuel g node visited temp order = .error (.unknown d0) →
    g.lookup d0 = none := by
  intro fuel
  induction fuel with
  | zero => intro g node visited temp order d0 h; simp [topoSort] at h
  | succ fuel ih =>
    intro g node visited temp order d0 h
    simp only [topoSort] at h
    by_cases h1 : node ∈ temp
    · rw [if_pos h1] at h; simp at h
    · rw [if_neg h1] at h
      by_cases h2 : node ∈ visited
      · rw [if_pos h2] at h; simp at h
      · rw [if_neg h2] at h
        cases hvd : topoVisitDeps g (fun d v o => topoSort fuel g d v (node :: temp) o)
            (depsOf g node) visited order with
        | ok p => obtain ⟨v, o⟩ := p; rw [hvd] at h; simp at h
        | error e =>
          rw [hvd] at h
          simp only [Except.error.injEq] at h
          subst h
          rcases topoVisitDeps_error_elim g _ (depsOf g node) visited order _ hvd with h' | h'
          · obtain ⟨d, _, hnone, heq⟩ := h'
            simp only [TopoErr.unknown.injEq] at heq
            rw [heq]
            exact hnone
          · obtain ⟨d, _, v, o, hcall⟩ := h'
            exact ih g d v (node :: temp) o d0 hcall

theorem topoSort_cycle_path :
    ∀ (fuel : Nat) (g : Graph) (node : String) (visited temp order : List String) (c : String),
    List.Chain (fun x y => x ∈ depsOf g y) node temp →
    topoSort fuel g node visited temp order = .error (.cycle c) →
    DepPath g c c := by
  intro fuel
  induction fuel with
  | zero => intro g node visited temp order c _ h; simp [topoSort] at h
  | succ fuel ih =>
    intro g node visited temp order c hch h
    simp only [topoSort] at h
    by_cases h1 : node ∈ temp
    · rw [if_pos h1] at h
      simp only [Except.error.injEq, TopoErr.cycle.injEq] at h
      subst h
      exact chain_mem_depPath hch node h1
    · rw [if_neg h1] at h
      by_cases h2 : node ∈ visited
      · rw [if_pos h2] at h; simp at h
      · rw [if_neg h2] at h
        cases hvd : topoVisitDeps g (fun d v o => topoSort fuel g d v (node :: temp) o)
            (depsOf g node) visited order with
        | ok p => obtain ⟨v, o⟩ := p; rw [hvd] at h; simp at h
        | error e =>
          rw [hvd] at h
          simp only [Except.error.injEq] at h
          subst h
          rcases topoVisitDeps_error_elim g _ (depsOf g node) visited order _ hvd with h' | h'
          · obtain ⟨d, _, _, habs⟩ := h'
            simp at habs
          · obtain ⟨d, hd, v, o, hcall⟩ := h'
            exact ih g d v (node :: temp) o c (List.Chain.cons hd hch) hcall

theorem resolve_fuel_bound (g : Graph) :
    ((keys g).filter (fun x => decide (x ∉ ([] : List String)))).length < g.length + 1 := by
  have hf : (keys g).filter (fun x => decide (x ∉ ([] : List String))) = keys g := by
    apply List.filter_eq_self.mpr
    intro x _
    simp
  rw [hf]
  simp [keys]

/-- C1: for every acyclic registry (satisfying the registry invariant that
all `dependsOn` names exist) and every target present in it, `Resolve`
returns a build order containing exactly the features reachable from the
target, each exactly once (`Nodup`), with every dependency strictly before
every feature that depends on it (any split `l1 ++ a :: l2` of the order
puts all of `a`'s dependencies in `l1`). -/
theorem resolve_acyclic_topo_order (g : Graph) (target : String)
    (hcl : Closed g) (hac : Acyclic g) (htgt : target ∈ keys g) :
    ∃ order, Resolve g target = .ok order ∧
      (∀ f, f ∈ order ↔ Reaches g target f) ∧ order.Nodup ∧
      (∀ l1 a l2, order = l1 ++ a :: l2 → ∀ d ∈ depsOf g a, d ∈ l1) := by
  obtain ⟨v', o', hok⟩ := topoSort_succeeds (g.length + 1) g target [] [] []
    hcl hac (resolve_fuel_bound g) List.Chain.nil (tstate_nil g)
  obtain ⟨ts, _, htv, hsound, _⟩ :=
    topoSort_ok_spec (g.length + 1) g target [] [] [] v' o' hok (tstate_nil g)
  refine ⟨o', by unfold Resolve; rw [hok], ?_, ts.nodup,
    fun l1 a l2 hsplit d hd => tstate_split ts hsplit hd⟩
  intro f
  constructor
  · intro hf
    rcases hsound f ((ts.mem_iff f).mpr hf) with h | ⟨hr, _⟩
    · simp at h
    · exact hr
  · intro hr
    have hv : f ∈ v' :=
      reach_closure (fun x => x ∈ v')
        (fun a ha d hd => (ts.mem_iff d).mpr (ts.depsIn a ((ts.mem_iff a).mp ha) d hd))
        target f hr htv
    exact (ts.mem_iff f).mp hv

/-- Witness for C1 on the concrete registry `c1g` (`app` depends on
`base`). -/
theorem resolve_acyclic_topo_order_witness :
    Closed c1g ∧ Acyclic c1g ∧ "app" ∈ keys c1g ∧
    (∃ order, Resolve c1g "app" = .ok order ∧
      (∀ f, f ∈ order ↔ Reaches c1g "app" f) ∧ order.Nodup ∧
      (∀ l1 a l2, order = l1 ++ a :: l2 → ∀ d ∈ depsOf c1g a, d ∈ l1)) := by
  have hcl : Closed c1g := by unfold Closed; decide
  have hac : Acyclic c1g := by
    apply acyclic_of_rank c1g (fun s => if s = "app" then 1 else 0)
    intro a d hd
    by_cases ha : a = "app"
    · subst ha
      have hdeps : depsOf c1g "app" = ["base"] := rfl
      rw [hdeps] at hd
      have hdb : d = "base" := by simpa using hd
      subst hdb
      decide
    · by_cases hb : a = "base"
      · subst hb
        have hdeps : depsOf c1g "base" = [] := rfl
        rw [hdeps] at hd
        simp at hd
      · have hnk : a ∉ keys c1g := by
          simp only [c1g, keys, List.map_cons, List.map_nil, List.mem_cons, List.not_mem_nil]
          push_neg
          exact ⟨ha, ⟨hb, fun h => h⟩⟩
        have hdeps : depsOf c1g a = [] := by
          unfold depsOf
          rw [lookup_none_of_not_mem hnk]
        rw [hdeps] at hd
        simp at hd
  exact ⟨hcl, hac, by decide,
    resolve_acyclic_topo_order c1g "app" hcl hac (by decide)⟩

/-- C6: on a registry satisfying the registry invariant, resolving any node
that lies on a dependency cycle fails with a `CycleError` naming a node
that itself lies on a cycle; no build order is returned. -/
theorem resolve_cycle_error (g : Graph) (target : String)
    (hcl : Closed g) (hcyc : DepPath g target target) :
    ∃ c, Resolve g target = .error (.cycle c) ∧ DepPath g c c := by
  rcases hres : topoSort (g.length + 1) g target [] [] [] with e | p
  · cases e with
    | cycle c =>
      refine ⟨c, ?_, topoSort_cycle_path (g.length + 1) g target [] [] [] c List.Chain.nil hres⟩
      unfold Resolve
      rw [hres]
    | unknown d => exact absurd hres (topoSort_no_unknown (g.length + 1) g target [] [] [] d hcl)
    | fuelOut =>
      exact absurd hres (topoSort_ne_fuelOut (g.length + 1) g target [] [] [] (resolve_fuel_bound g))
  · obtain ⟨v', o'⟩ := p
    exfalso
    obtain ⟨ts, _, htgt, _, _⟩ :=
      topoSort_ok_spec (g.length + 1) g target [] [] [] v' o' hres (tstate_nil g)
    exact tstate_no_depPath ts ((ts.mem_iff target).mp htgt) hcyc

/-- Witness for C6 on the concrete cyclic registry `c6g`. -/
theorem resolve_cycle_error_witness :
    Closed c6g ∧ DepPath c6g "a" "a" ∧
    (∃ c, Resolve c6g "a" = .error (.cycle c) ∧ DepPath c6g c c) := by
  have hcl : Closed c6g := by unfold Closed; decide
  have hp : DepPath c6g "a" "a" :=
    DepPath.cons (d := "b") (by decide) (DepPath.single (by decide))
  exact ⟨hcl, hp, resolve_cycle_error c6g "a" hcl hp⟩

/-- C5 counterexample: the requested target itself is never checked against
the registry.  Resolving the absent name `b` returns the build order `[b]`
instead of failing with `UnknownDependencyError` — the membership check at
`cmd/apis/main.go:108` runs only for names reached through a `dependsOn`
edge, and the commented-out validation at `main.go:151-156` is the missing
target check. -/
theorem resolve_unknown_counterexample :
    Resolve [("a", [])] "b" = .ok ["b"] ∧ "b" ∉ keys [("a", ([] : List String))] :=
  ⟨rfl, by decide⟩

/-- C5 amended: every name reached through a visited feature's `dependsOn`
list is checked against the registry.  In an acyclic registry, a feature
reachable from the target with a `dependsOn` name absent from the registry
makes `Resolve` fail with `UnknownDependencyError` naming a missing
reference (acyclicity matters because a reachable cycle can be detected
first), and dually a returned build order only ever contains features whose
dependencies all exist.  But the requested target itself is never checked:
an absent target resolves to the singleton order `[target]`, and the loop
iteration for a name absent from the registry then crashes on a nil feature
pointer (`cfg.Features[fname]` is nil at `cmd/apis/main.go:176`). -/
theorem resolve_unknown_amended (g : Graph) (target : String) :
    (∀ (a d : String), Acyclic g → Reaches g target a → d ∈ depsOf g a → d ∉ keys g →
      ∃ d', Resolve g target = .error (.unknown d') ∧ d' ∉ keys g) ∧
    (∀ order, Resolve g target = .ok order →
        ∀ a ∈ order, ∀ d ∈ depsOf g a, d ∈ keys g) ∧
    (target ∉ keys g → Resolve g target = .ok [target]) ∧
    (∀ (env : Env) (reg : Registry) (st : RunState), reg.lookup target = none →
      step env reg st target = .error (.nilFeature target, st)) := by
  refine ⟨?_, ?_, ?_, ?_⟩
  · intro a d hac hreach hd hdk
    rcases hres : topoSort (g.length + 1) g target [] [] [] with e | p
    · cases e with
      | unknown d' =>
        refine ⟨d', by unfold Resolve; rw [hres], ?_⟩
        intro hmem
        have hsome := lookup_isSome_iff.mpr hmem
        rw [topoSort_unknown_missing (g.length + 1) g target [] [] [] d' hres] at hsome
        simp at hsome
      | cycle c =>
        exact absurd
          (topoSort_cycle_path (g.length + 1) g target [] [] [] c List.Chain.nil hres)
          (hac c)
      | fuelOut =>
        exact absurd hres
          (topoSort_ne_fuelOut (g.length + 1) g target [] [] [] (resolve_fuel_bound g))
    · obtain ⟨v', o'⟩ := p
      exfalso
      obtain ⟨ts, _, htv, _, _⟩ :=
        topoSort_ok_spec (g.length + 1) g target [] [] [] v' o' hres (tstate_nil g)
      have ha : a ∈ v' :=
        reach_closure (fun x => x ∈ v')
          (fun b hb e he => (ts.mem_iff e).mpr (ts.depsIn b ((ts.mem_iff b).mp hb) e he))
          target a hreach htv
      exact hdk (lookup_isSome_iff.mp (ts.checked a ((ts.mem_iff a).mp ha) d hd))
  · intro order hok a ha d hd
    unfold Resolve at hok
    rcases hres : topoSort (g.length + 1) g target [] [] [] with e | p
    · rw [hres] at hok; simp at hok
    · obtain ⟨v', o'⟩ := p
      rw [hres] at hok
      simp only [Except.ok.injEq] at hok
      rw [← hok] at ha
      obtain ⟨ts, _, _, _, _⟩ :=
        topoSort_ok_spec (g.length + 1) g target [] [] [] v' o' hres (tstate_nil g)
      exact lookup_isSome_iff.mp (ts.checked a ha d hd)
  · intro htgt
    have hdeps : depsOf g target = [] := by
      unfold depsOf
      rw [lookup_none_of_not_mem htgt]
    unfold Resolve
    simp [topoSort, topoVisitDeps, hdeps]
  · intro env reg st hl
    simp [step, hl]

/-- Witness for the amended C5: the registry `[a -> deps [b]]` with `b`
absent yields `UnknownDependencyError b`; the absent target `b` in the
registry `[a -> deps []]` resolves to `[b]`, and its loop iteration crashes
on the nil feature. -/
theorem resolve_unknown_amended_witness :
    Acyclic [("a", ["b"])] ∧
    ("b" ∈ depsOf [("a", ["b"])] "a") ∧ ("b" ∉ keys [("a", ["b"])]) ∧
    (∃ d', Resolve [("a", ["b"])] "a" = .error (.unknown d') ∧ d' ∉ keys [("a", ["b"])]) ∧
    Resolve [("a", ["b"])] "a" = .error (.unknown "b") ∧
    ("b" ∉ keys [(("a" : String), ([] : List String))]) ∧
    Resolve [("a", [])] "b" = .ok ["b"] ∧
    step ⟨cSha, [], fun _ => true, fun _ => true⟩ [("a", ⟨"a", [], "c", []⟩)]
        (initState []) "b" = .error (.nilFeature "b", initState []) := by
  have hac : Acyclic [("a", ["b"])] := by
    apply acyclic_of_rank [("a", ["b"])] (fun s => if s = "a" then 1 else 0)
    intro n d hd
    by_cases hn : n = "a"
    · subst hn
      have hdeps : depsOf [("a", ["b"])] "a" = ["b"] := rfl
      rw [hdeps] at hd
      have hdb : d = "b" := by simpa using hd
      subst hdb
      decide
    · have hnk : n ∉ keys [("a", ["b"])] := by
        simpa [keys] using hn
      have hdeps : depsOf [("a", ["b"])] n = [] := by
        unfold depsOf
        rw [lookup_none_of_not_mem hnk]
      rw [hdeps] at hd
      simp at hd
  refine ⟨hac, by decide, by decide, ?_, rfl, by decide, ?_, ?_⟩
  · exact (resolve_unknown_amended [("a", ["b"])] "a").1 "a" "b" hac (Reaches.refl "a")
      (by decide) (by decide)
  · exact (resolve_unknown_amended [("a", [])] "b").2.2.1 (by decide)
  · exact (resolve_unknown_amended [("a", [])] "b").2.2.2
      ⟨cSha, [], fun _ => true, fun _ => true⟩ [("a", ⟨"a", [], "c", []⟩)] (initState []) rfl

/-! ### String-append lemmas for the hashing results -/

theorem strAppend_assoc (a b c : String) : (a ++ b) ++ c = a ++ (b ++ c) := by
  cases a; cases b; cases c
  exact congrArg String.mk (List.append_assoc _ _ _)

theorem strAppend_empty (s : String) : s ++ "" = s := by
  cases s
  exact congrArg String.mk (List.append_nil _)

theorem strNil_append (s : String) : "" ++ s = s := by
  cases s
  exact congrArg String.mk (List.nil_append _)

theorem strAppend_inj {a b c d : String} (h : a ++ b = c ++ d)
    (hl : a.length = c.length) : a = c ∧ b = d := by
  have hd : a.data ++ b.data = c.data ++ d.data := by
    have h2 : (a ++ b).data = (c ++ d).data := by rw [h]
    simpa using h2
  have hlen : a.data.length = c.data.length := hl
  have h2 := List.append_inj hd hlen
  constructor
  · cases a; cases c; exact congrArg String.mk h2.1
  · cases b; cases d; exact congrArg String.mk h2.2

theorem strLength_append (a b : String) : (a ++ b).length = a.length + b.length := by
  cases a; cases b
  exact List.length_append _ _

/-- The concatenation of same-positive-length strings determines the list. -/
theorem strJoin_inj_of_len (L : Nat) (hL : 0 < L) :
    ∀ (l1 l2 : List String), (∀ s ∈ l1, s.length = L) → (∀ s ∈ l2, s.length = L) →
    strJoin l1 = strJoin l2 → l1 = l2 := by
  intro l1
  induction l1 with
  | nil =>
    intro l2 _ h2 hj
    cases l2 with
    | nil => rfl
    | cons y ys =>
      exfalso
      have hlen : (0 : Nat) = (y ++ strJoin ys).length := congrArg String.length hj
      rw [strLength_append, h2 y (List.mem_cons_self y ys)] at hlen
      omega
  | cons x xs ih =>
    intro l2 h1 h2 hj
    cases l2 with
    | nil =>
      exfalso
      have hlen : (x ++ strJoin xs).length = (0 : Nat) := congrArg String.length hj
      rw [strLength_append, h1 x (List.mem_cons_self x xs)] at hlen
      omega
    | cons y ys =>
      have hx : x.length = L := h1 x (List.mem_cons_self x xs)
      have hy : y.length = L := h2 y (List.mem_cons_self y ys)
      have hj' : x ++ strJoin xs = y ++ strJoin ys := hj
      obtain ⟨hxy, hrest⟩ := strAppend_inj hj' (by rw [hx, hy])
      have hxs := ih ys (fun s hs => h1 s (List.mem_cons_of_mem x hs))
        (fun s hs => h2 s (List.mem_cons_of_mem y hs)) hrest
      rw [hxy, hxs]

/-! ### Directory-digest claims -/

theorem streamFiles_all_readable (shaHex : String → String) :
    ∀ (files : List (String × String × Bool)) (acc : String),
    (∀ f ∈ files, f.2.2 = true) →
    streamFiles shaHex files acc =
      .ok (shaHex (acc ++ strJoin (files.map (fun f => f.2.1)))) := by
  intro files
  induction files with
  | nil =>
    intro acc _
    simp only [streamFiles, List.map_nil]
    rw [show strJoin ([] : List String) = "" from rfl, strAppend_empty]
  | cons f rest ih =>
    intro acc hall
    obtain ⟨p, c, r⟩ := f
    have hr : r = true := hall (p, c, r) (List.mem_cons_self _ _)
    subst hr
    simp only [streamFiles, if_true]
    rw [ih (acc ++ c) (fun f hf => hall f (List.mem_cons_of_mem _ hf))]
    rw [strAppend_assoc]
    rfl

/-- C4 amended: the shipped `HashDir` digests the concatenation of the raw
byte contents of all files under the path, in lexicographically sorted
full-path order, as ONE digest — it does not digest files independently and
fold per-file digests (that is the never-invoked `internal/hash.HashDir`).
Timestamps and permissions are never read by the walk, and empty
directories contribute nothing. -/
theorem hashdir_amended (shaHex : String → String) :
    (∀ (fs : FS) (d : String) (t : FSNode), fs.lookup d = some t →
      (∀ f ∈ sortByPath (walkFiles d t), f.2.2 = true) →
      HashDir shaHex fs d =
        .ok (shaHex (strJoin ((sortByPath (walkFiles d t)).map (fun f => f.2.1))))) ∧
    (∀ (d : String) (t1 t2 : FSNode) (rest : FS), walkFiles d t1 = walkFiles d t2 →
      HashDir shaHex ((d, t1) :: rest) d = HashDir shaHex ((d, t2) :: rest) d) ∧
    (∀ (p c : String) (a1 m1 a2 m2 : Nat) (r : Bool),
      walkFiles p (.file c a1 m1 r) = walkFiles p (.file c a2 m2 r)) ∧
    (∀ (p n : String) (es : List (String × FSNode)),
      walkFiles p (.dir ((n, .dir []) :: es)) = walkFiles p (.dir es)) := by
  refine ⟨?_, ?_, ?_, ?_⟩
  · intro fs d t hl hr
    unfold HashDir
    rw [hl]
    show streamFiles shaHex (sortByPath (walkFiles d t)) "" = _
    rw [streamFiles_all_readable shaHex _ "" hr, strNil_append]
  · intro d t1 t2 rest hwalk
    unfold HashDir
    simp only [List.lookup, beq_self_eq_true, hwalk]
  · intro p c a1 m1 a2 m2 r
    rfl
  · intro p n es
    simp [walkFiles, walkEntries]

/-- Witness for the amended C4: the single-file tree `d/a ↦ "xy"` digests
to the digest of the byte stream `"xy"`. -/
theorem hashdir_amended_witness :
    ([(("d" : String), FSNode.dir [("a", .file "xy" 7 9 true)])].lookup "d" =
        some (FSNode.dir [("a", .file "xy" 7 9 true)])) ∧
    HashDir cSha [("d", .dir [("a", .file "xy" 7 9 true)])] "d" = .ok (cSha "xy") := by
  refine ⟨rfl, ?_⟩
  have h := (hashdir_amended cSha).1 [("d", .dir [("a", .file "xy" 7 9 true)])] "d"
    (.dir [("a", .file "xy" 7 9 true)]) rfl (by decide)
  rw [h]
  rfl

/-- C4 counterexample: the claim says per-file digests are folded, which
would distinguish the tree `{a ↦ "xy"}` from `{a ↦ "x", b ↦ "y"}` (their
per-file digest sequences differ, as `hashPkgHashDir` — the faithful
embedding of the claimed per-file algorithm from `internal/hash` — shows).
The shipped `HashDir` instead streams raw bytes, so the two trees collide. -/
theorem hashdir_per_file_counterexample :
    HashDir cSha [("d", .dir [("a", .file "xy" 0 0 true)])] "d" =
      HashDir cSha [("d", .dir [("a", .file "x" 0 0 true), ("b", .file "y" 0 0 true)])] "d" ∧
    (hashPkgHashDir cSha [("d", .dir [("a", .file "xy" 0 0 true)])] "d").toOption ≠
      (hashPkgHashDir cSha
        [("d", .dir [("a", .file "x" 0 0 true), ("b", .file "y" 0 0 true)])] "d").toOption :=
  ⟨rfl, by decide⟩

/-- C10: the digest of `HashDir` depends only on the concatenation, in
sorted-full-path order, of the raw byte contents of the files under the
path: two trees whose sorted streams agree byte-for-byte digest equal,
whatever their file boundaries, names or counts. -/
theorem hashdir_stream_determined (shaHex : String → String) (fs1 fs2 : FS)
    (d1 d2 : String) (t1 t2 : FSNode)
    (h1 : fs1.lookup d1 = some t1) (h2 : fs2.lookup d2 = some t2)
    (hr1 : ∀ f ∈ sortByPath (walkFiles d1 t1), f.2.2 = true)
    (hr2 : ∀ f ∈ sortByPath (walkFiles d2 t2), f.2.2 = true)
    (hstream : strJoin ((sortByPath (walkFiles d1 t1)).map (fun f => f.2.1)) =
      strJoin ((sortByPath (walkFiles d2 t2)).map (fun f => f.2.1))) :
    HashDir shaHex fs1 d1 = HashDir shaHex fs2 d2 := by
  unfold HashDir
  rw [h1, h2]
  show streamFiles shaHex (sortByPath (walkFiles d1 t1)) "" =
    streamFiles shaHex (sortByPath (walkFiles d2 t2)) ""
  rw [streamFiles_all_readable shaHex _ "" hr1,
    streamFiles_all_readable shaHex _ "" hr2, hstream]

/-- Witness for C10: one file `"ab"` versus two files `"a"`, `"b"` — the
sorted streams agree, and so do the digests. -/
theorem hashdir_stream_determined_witness :
    (strJoin ((sortByPath (walkFiles "d" (.dir [("a", .file "ab" 0 0 true)]))).map
        (fun f => f.2.1)) =
      strJoin ((sortByPath (walkFiles "d"
        (.dir [("a", .file "a" 1 2 true), ("b", .file "b" 3 4 true)]))).map
        (fun f => f.2.1))) ∧
    HashDir cSha [("d", .dir [("a", .file "ab" 0 0 true)])] "d" =
      HashDir cSha [("d", .dir [("a", .file "a" 1 2 true), ("b", .file "b" 3 4 true)])] "d" := by
  refine ⟨by decide, ?_⟩
  exact hashdir_stream_determined cSha _ _ "d" "d" _ _ rfl rfl
    (by decide) (by decide) (by decide)

/-- C3 amended: in `ComputeFeatureHash` the dependency digests are folded
after the command digest and the input-directory digests, but they are
sorted by fingerprint VALUE (`sort.Strings` applied directly to the digest
strings); the dependency names are not passed in at all, so no name sort
occurs in the shipped fingerprinter. -/
theorem computefeaturehash_value_sorted (shaHex : String → String) (fs : FS)
    (feat : Feature) (depHashes : List String) (acc : String)
    (hacc : hashInputs shaHex fs feat.inputs feat.command = .ok acc) :
    ComputeFeatureHash shaHex fs feat depHashes =
      .ok (shaHex (acc ++ strJoin (sortStrings depHashes))) ∧
    (sortStrings depHashes).Sorted strRel ∧
    (sortStrings depHashes).Perm depHashes := by
  refine ⟨?_, List.sorted_insertionSort strRel depHashes,
    List.perm_insertionSort strRel depHashes⟩
  unfold ComputeFeatureHash
  rw [hacc]

/-- Witness for the amended C3 at a concrete feature. -/
theorem computefeaturehash_value_sorted_witness :
    (hashInputs cSha [] ([] : List String) "c" = .ok "c") ∧
    ComputeFeatureHash cSha [] ⟨"f", [], "c", ["a", "b"]⟩ ["z", "y"] =
      .ok (cSha ("c" ++ strJoin (sortStrings ["z", "y"]))) := by
  refine ⟨rfl, ?_⟩
  exact (computefeaturehash_value_sorted cSha [] ⟨"f", [], "c", ["a", "b"]⟩
    ["z", "y"] "c" rfl).1

/-- C3 counterexample: with dependency `a` carrying fingerprint `"z"` and
dependency `b` carrying `"y"`, the spec's name-sorted rule folds `"z"`
then `"y"`, while the code sorts the fingerprint values and folds `"y"`
then `"z"`; the two digests differ. -/
theorem computefeaturehash_name_sort_counterexample :
    (ComputeFeatureHash cSha [] ⟨"f", [], "c", ["a", "b"]⟩ ["z", "y"]).toOption =
      some (cSha "cyz") ∧
    (ComputeFeatureHashNameSorted cSha [] ⟨"f", [], "c", ["a", "b"]⟩
        [("a", "z"), ("b", "y")]).toOption = some (cSha "czy") ∧
    cSha "cyz" ≠ cSha "czy" :=
  ⟨rfl, rfl, by decide⟩

/-! ### Orchestration-loop helper lemmas -/

theorem step_eq_skip (env : Env) (reg : Registry) (st : RunState) (fname : String)
    (feat : Feature) (newHash : String)
    (hreg : reg.lookup fname = some feat)
    (hhash : ComputeFeatureHash env.shaHex env.fs feat
        (feat.dependsOn.map (fun dep => (st.hashCache.lookup dep).getD "")) = .ok newHash)
    (hhit : st.cache.lookup fname = some newHash) :
    step env reg st fname = .ok { st with
      decisions := st.decisions ++ [(fname, Decision.SKIP)],
      hashCache := (fname, newHash) :: st.hashCache } := by
  simp [step, ReadFeatureHash, hreg, hhash, hhit]

theorem step_eq_build (env : Env) (reg : Registry) (st : RunState) (fname : String)
    (feat : Feature) (newHash : String)
    (hreg : reg.lookup fname = some feat)
    (hhash : ComputeFeatureHash env.shaHex env.fs feat
        (feat.dependsOn.map (fun dep => (st.hashCache.lookup dep).getD "")) = .ok newHash)
    (hmiss : st.cache.lookup fname ≠ some newHash) :
    step env reg st fname = stepBuild env st fname feat newHash := by
  cases hl : st.cache.lookup fname with
  | none => simp only [step, ReadFeatureHash, hreg, hhash, hl]
  | some old =>
    have hne : old ≠ newHash := by
      intro he
      rw [he] at hl
      exact hmiss hl
    simp only [step, ReadFeatureHash, hreg, hhash, hl]
    rw [if_neg hne]

theorem stepDecisions_build (env : Env) (reg : Registry) (st : RunState) (fname : String)
    (feat : Feature) (newHash : String)
    (hreg : reg.lookup fname = some feat)
    (hhash : ComputeFeatureHash env.shaHex env.fs feat
        (feat.dependsOn.map (fun dep => (st.hashCache.lookup dep).getD "")) = .ok newHash)
    (hmiss : st.cache.lookup fname ≠ some newHash) :
    stepDecisions (step env reg st fname) = st.decisions ++ [(fname, Decision.BUILD)] := by
  rw [step_eq_build env reg st fname feat newHash hreg hhash hmiss]
  cases hi : feat.inputs with
  | nil => simp [stepBuild, stepDecisions, hi]
  | cons c rest =>
    cases hb : env.buildOk fname with
    | true => simp [stepBuild, stepDecisions, hi, hb]
    | false => simp [stepBuild, stepDecisions, hi, hb]

/-! ### Orchestration-loop claims -/

/-- C7 amended: for a feature with at least one input path, the loop body
prints SKIP and performs no build invocation and no cache write exactly when
the persisted fingerprint is present and equal; otherwise it prints BUILD
and invokes the build action exactly once, and on action success it calls
the cache-store write with the new fingerprint (the write is attempted
unconditionally; the persisted record only changes when the write succeeds)
and records the fingerprint in the per-run map.  The original claim is
falsified only by features with an empty `inputs` list, for which the
BUILD branch panics at `feat.Inputs[0]` before any invocation. -/
theorem step_skip_build_amended (env : Env) (reg : Registry) (st : RunState)
    (fname : String) (feat : Feature) (newHash : String)
    (hreg : reg.lookup fname = some feat)
    (hhash : ComputeFeatureHash env.shaHex env.fs feat
        (feat.dependsOn.map (fun dep => (st.hashCache.lookup dep).getD "")) = .ok newHash)
    (hinputs : feat.inputs ≠ []) :
    (st.cache.lookup fname = some newHash →
      step env reg st fname = .ok { st with
        decisions := st.decisions ++ [(fname, Decision.SKIP)],
        hashCache := (fname, newHash) :: st.hashCache }) ∧
    (st.cache.lookup fname ≠ some newHash → env.buildOk fname = true →
      step env reg st fname = .ok
        { cache := if env.writeOk fname then (fname, newHash) :: st.cache else st.cache,
          hashCache := (fname, newHash) :: st.hashCache,
          decisions := st.decisions ++ [(fname, Decision.BUILD)],
          invocations := st.invocations ++ [fname],
          writes := st.writes ++ [(fname, newHash)] }) ∧
    (st.cache.lookup fname ≠ some newHash → env.buildOk fname = false →
      step env reg st fname = .error (.buildFailed fname,
        { st with
          decisions := st.decisions ++ [(fname, Decision.BUILD)],
          invocations := st.invocations ++ [fname] })) := by
  refine ⟨?_, ?_, ?_⟩
  · intro hhit
    exact step_eq_skip env reg st fname feat newHash hreg hhash hhit
  · intro hmiss hb
    rw [step_eq_build env reg st fname feat newHash hreg hhash hmiss]
    cases hi : feat.inputs with
    | nil => exact absurd hi hinputs
    | cons c rest => simp [stepBuild, hi, hb]
  · intro hmiss hb
    rw [step_eq_build env reg st fname feat newHash hreg hhash hmiss]
    cases hi : feat.inputs with
    | nil => exact absurd hi hinputs
    | cons c rest => simp [stepBuild, hi, hb]

/-- Witness for the amended C7: a SKIP with a warm cache and a BUILD with a
cold cache, on a one-feature registry with the identity digest. -/
theorem step_skip_build_amended_witness :
    (([("solo", "cz")] : List (String × String)).lookup "solo" = some "cz") ∧
    step ⟨fun s => s, [("p", .dir [("u", .file "z" 0 0 true)])], fun _ => true, fun _ => true⟩
        [("solo", ⟨"solo", ["p"], "c", []⟩)]
        ⟨[("solo", "cz")], [], [], [], []⟩ "solo" =
      .ok ⟨[("solo", "cz")], [("solo", "cz")], [("solo", Decision.SKIP)], [], []⟩ ∧
    step ⟨fun s => s, [("p", .dir [("u", .file "z" 0 0 true)])], fun _ => true, fun _ => true⟩
        [("solo", ⟨"solo", ["p"], "c", []⟩)]
        (initState []) "solo" =
      .ok ⟨[("solo", "cz")], [("solo", "cz")], [("solo", Decision.BUILD)], ["solo"],
        [("solo", "cz")]⟩ := by
  refine ⟨rfl, ?_, ?_⟩
  · exact (step_skip_build_amended
      ⟨fun s => s, [("p", .dir [("u", .file "z" 0 0 true)])], fun _ => true, fun _ => true⟩
      [("solo", ⟨"solo", ["p"], "c", []⟩)] ⟨[("solo", "cz")], [], [], [], []⟩
      "solo" ⟨"solo", ["p"], "c", []⟩ "cz" rfl rfl (by decide)).1 rfl
  · exact (step_skip_build_amended
      ⟨fun s => s, [("p", .dir [("u", .file "z" 0 0 true)])], fun _ => true, fun _ => true⟩
      [("solo", ⟨"solo", ["p"], "c", []⟩)] (initState [])
      "solo" ⟨"solo", ["p"], "c", []⟩ "cz" rfl rfl (by decide)).2.1 (by decide) rfl

/-- C7 counterexample: a feature with an empty `inputs` list and a cache
miss prints BUILD and then panics at `feat.Inputs[0]` (index out of range)
BEFORE invoking the build action — zero invocations, no ok-result — where
the claim requires exactly one invocation. -/
theorem step_empty_inputs_counterexample :
    step ⟨cSha, [], fun _ => true, fun _ => true⟩ [("solo", ⟨"solo", [], "c", []⟩)]
        (initState []) "solo" =
      .error (.emptyInputs "solo", ⟨[], [], [("solo", Decision.BUILD)], [], []⟩) := rfl

/-- C8: the result of `cache.WriteFeatureHash` is discarded at
`cmd/apis/main.go:212`, so when the write fails after a successful build the
loop continues normally (ok-result, next feature would be processed), the
persisted cache is unchanged, and only the per-run map carries the new
fingerprint — no hard failure is surfaced. -/
theorem cache_write_failure_ignored (env : Env) (reg : Registry) (st : RunState)
    (fname : String) (feat : Feature) (newHash : String)
    (hreg : reg.lookup fname = some feat)
    (hhash : ComputeFeatureHash env.shaHex env.fs feat
        (feat.dependsOn.map (fun dep => (st.hashCache.lookup dep).getD "")) = .ok newHash)
    (hmiss : st.cache.lookup fname ≠ some newHash)
    (hinputs : feat.inputs ≠ [])
    (hbuild : env.buildOk fname = true)
    (hwrite : env.writeOk fname = false) :
    step env reg st fname = .ok
      { cache := st.cache,
        hashCache := (fname, newHash) :: st.hashCache,
        decisions := st.decisions ++ [(fname, Decision.BUILD)],
        invocations := st.invocations ++ [fname],
        writes := st.writes ++ [(fname, newHash)] } := by
  rw [step_eq_build env reg st fname feat newHash hreg hhash hmiss]
  cases hi : feat.inputs with
  | nil => exact absurd hi hinputs
  | cons c rest => simp [stepBuild, hi, hbuild, hwrite]

/-- Witness for C8: failed write after a successful build at a concrete
one-feature registry; the step still returns ok and the cache stays empty. -/
theorem cache_write_failure_ignored_witness :
    (([] : List (String × String)).lookup "solo" ≠ some "cz") ∧
    step ⟨fun s => s, [("p", .dir [("u", .file "z" 0 0 true)])], fun _ => true, fun _ => false⟩
        [("solo", ⟨"solo", ["p"], "c", []⟩)] (initState []) "solo" =
      .ok ⟨[], [("solo", "cz")], [("solo", Decision.BUILD)], ["solo"], [("solo", "cz")]⟩ := by
  refine ⟨by decide, ?_⟩
  exact cache_write_failure_ignored
    ⟨fun s => s, [("p", .dir [("u", .file "z" 0 0 true)])], fun _ => true, fun _ => false⟩
    [("solo", ⟨"solo", ["p"], "c", []⟩)] (initState []) "solo"
    ⟨"solo", ["p"], "c", []⟩ "cz" rfl rfl (by decide) (by decide) rfl rfl

/-- C9: when the external build action fails, the loop body aborts with
`BuildExecutionError` before any cache write (the abort state carries the
unchanged cache and an empty delta of writes), the run loop stops
immediately without touching the remaining features, and any later run that
recomputes the same fingerprint over the same unchanged cache record again
decides BUILD for the feature. -/
theorem build_failure_aborts (env : Env) (reg : Registry) (st : RunState)
    (fname : String) (feat : Feature) (newHash : String) (rest : List String)
    (hreg : reg.lookup fname = some feat)
    (hhash : ComputeFeatureHash env.shaHex env.fs feat
        (feat.dependsOn.map (fun dep => (st.hashCache.lookup dep).getD "")) = .ok newHash)
    (hmiss : st.cache.lookup fname ≠ some newHash)
    (hinputs : feat.inputs ≠ [])
    (hfail : env.buildOk fname = false) :
    step env reg st fname = .error (.buildFailed fname,
      { st with
        decisions := st.decisions ++ [(fname, Decision.BUILD)],
        invocations := st.invocations ++ [fname] }) ∧
    runLoop env reg (fname :: rest) st = .error (.buildFailed fname,
      { st with
        decisions := st.decisions ++ [(fname, Decision.BUILD)],
        invocations := st.invocations ++ [fname] }) ∧
    (∀ (env2 : Env) (st2 : RunState),
      st2.cache.lookup fname = st.cache.lookup fname →
      ComputeFeatureHash env2.shaHex env2.fs feat
        (feat.dependsOn.map (fun dep => (st2.hashCache.lookup dep).getD "")) = .ok newHash →
      stepDecisions (step env2 reg st2 fname) = st2.decisions ++ [(fname, Decision.BUILD)]) := by
  have hstep : step env reg st fname = .error (.buildFailed fname,
      { st with
        decisions := st.decisions ++ [(fname, Decision.BUILD)],
        invocations := st.invocations ++ [fname] }) := by
    rw [step_eq_build env reg st fname feat newHash hreg hhash hmiss]
    cases hi : feat.inputs with
    | nil => exact absurd hi hinputs
    | cons c rest' => simp [stepBuild, hi, hfail]
  refine ⟨hstep, ?_, ?_⟩
  · simp only [runLoop, hstep]
  · intro env2 st2 hcache hhash2
    exact stepDecisions_build env2 reg st2 fname feat newHash hreg hhash2
      (by rw [hcache]; exact hmiss)

/-- Witness for C9 at a concrete one-feature registry whose docker build
fails. -/
theorem build_failure_aborts_witness :
    (([] : List (String × String)).lookup "solo" ≠ some "cz") ∧
    runLoop ⟨fun s => s, [("p", .dir [("u", .file "z" 0 0 true)])], fun _ => false, fun _ => true⟩
        [("solo", ⟨"solo", ["p"], "c", []⟩)] ["solo", "next"] (initState []) =
      .error (.buildFailed "solo", ⟨[], [], [("solo", Decision.BUILD)], ["solo"], []⟩) := by
  refine ⟨by decide, ?_⟩
  exact (build_failure_aborts
    ⟨fun s => s, [("p", .dir [("u", .file "z" 0 0 true)])], fun _ => false, fun _ => true⟩
    [("solo", ⟨"solo", ["p"], "c", []⟩)] (initState []) "solo"
    ⟨"solo", ["p"], "c", []⟩ "cz" ["next"] rfl rfl (by decide) (by decide) rfl).2.1

/-! ### Dependency-change propagation -/

theorem sortStrings_eq_of_perm {l1 l2 : List String} (h : l1.Perm l2) :
    sortStrings l1 = sortStrings l2 :=
  List.eq_of_perm_of_sorted (r := strRel)
    (((List.perm_insertionSort strRel l1).trans h).trans
      (List.perm_insertionSort strRel l2).symm)
    (List.sorted_insertionSort strRel l1)
    (List.sorted_insertionSort strRel l2)

theorem one_change_not_perm {A B : List String} {x y : String} (hxy : x ≠ y) :
    ¬ (A ++ x :: B).Perm (A ++ y :: B) := by
  intro h
  have hc := h.count_eq x
  rw [List.count_append, List.count_append, List.count_cons_self,
    List.count_cons_of_ne hxy] at hc
  omega

/-- C2 amended: when exactly one of a feature's dependency fingerprints
changes between two runs (the others unchanged in place), the feature's own
command and input-directory digests are unchanged, and the digest function
is injective with fingerprints of one common positive length (both hold for
hex SHA-256 in the collision-free idealization), then the feature's
fingerprint changes; consequently a later loop step whose persisted record
still holds the old fingerprint decides BUILD.  Transitive propagation
follows by applying this step by step along a dependency chain.  (The
original unconditional claim is false: sorting the fingerprints by value
erases which dependency carried which fingerprint, so two dependencies that
swap fingerprints between runs leave every dependent's fingerprint — and
its SKIP decision — unchanged; see the counterexample.) -/
theorem dependency_change_propagates (shaHex : String → String) (fs : FS) (feat : Feature)
    (A B : List String) (x y acc fp1 fp2 : String) (L : Nat)
    (hinj : Function.Injective shaHex) (hL : 0 < L)
    (hlen1 : ∀ s ∈ A ++ x :: B, s.length = L)
    (hlen2 : ∀ s ∈ A ++ y :: B, s.length = L)
    (hxy : x ≠ y)
    (hacc : hashInputs shaHex fs feat.inputs feat.command = .ok acc)
    (hfp1 : ComputeFeatureHash shaHex fs feat (A ++ x :: B) = .ok fp1)
    (hfp2 : ComputeFeatureHash shaHex fs feat (A ++ y :: B) = .ok fp2) :
    fp1 ≠ fp2 ∧
    (∀ (env2 : Env) (reg : Registry) (st2 : RunState) (fname : String),
      env2.shaHex = shaHex → env2.fs = fs →
      reg.lookup fname = some feat →
      st2.cache.lookup fname = some fp1 →
      feat.dependsOn.map (fun dep => (st2.hashCache.lookup dep).getD "") = A ++ y :: B →
      stepDecisions (step env2 reg st2 fname) = st2.decisions ++ [(fname, Decision.BUILD)]) := by
  have e1 : fp1 = shaHex (acc ++ strJoin (sortStrings (A ++ x :: B))) := by
    unfold ComputeFeatureHash at hfp1
    rw [hacc] at hfp1
    simp only [Except.ok.injEq] at hfp1
    exact hfp1.symm
  have e2 : fp2 = shaHex (acc ++ strJoin (sortStrings (A ++ y :: B))) := by
    unfold ComputeFeatureHash at hfp2
    rw [hacc] at hfp2
    simp only [Except.ok.injEq] at hfp2
    exact hfp2.symm
  have hne : fp1 ≠ fp2 := by
    intro heq
    rw [e1, e2] at heq
    have hjoin := strAppend_inj (hinj heq) rfl
    have hse : sortStrings (A ++ x :: B) = sortStrings (A ++ y :: B) := by
      apply strJoin_inj_of_len L hL
      · intro s hs
        exact hlen1 s ((List.perm_insertionSort strRel (A ++ x :: B)).mem_iff.mp hs)
      · intro s hs
        exact hlen2 s ((List.perm_insertionSort strRel (A ++ y :: B)).mem_iff.mp hs)
      · exact hjoin.2
    have hperm : (A ++ x :: B).Perm (A ++ y :: B) := by
      have p1 := List.perm_insertionSort strRel (A ++ x :: B)
      have p2 := List.perm_insertionSort strRel (A ++ y :: B)
      unfold sortStrings at hse
      rw [← hse] at p2
      exact p1.symm.trans p2
    exact one_change_not_perm hxy hperm
  refine ⟨hne, ?_⟩
  intro env2 reg st2 fname hsha hfs hreg hcache hdeps
  apply stepDecisions_build env2 reg st2 fname feat fp2 hreg
  · rw [hsha, hfs, hdeps]
    exact hfp2
  · rw [hcache]
    intro he
    simp only [Option.some.injEq] at he
    exact hne he

/-- Witness for the amended C2: dependency fingerprint `"0"` becomes `"1"`
while the sibling stays `"2"`; the feature's fingerprint changes from
`"Bw02"` to `"Bw12"` and the warm cache record `"Bw02"` yields BUILD. -/
theorem dependency_change_propagates_witness :
    ("Bw02" : String) ≠ "Bw12" ∧
    stepDecisions (step ⟨fun s => s, [("pf", .dir [("u", .file "w" 0 0 true)])],
        fun _ => true, fun _ => true⟩
      [("f", ⟨"f", ["pf"], "B", ["dx", "dy"]⟩)]
      ⟨[("f", "Bw02")], [("dx", "1"), ("dy", "2")], [], [], []⟩ "f") =
      [("f", Decision.BUILD)] := by
  have h := dependency_change_propagates (fun s => s)
    [("pf", .dir [("u", .file "w" 0 0 true)])] ⟨"f", ["pf"], "B", ["dx", "dy"]⟩
    [] ["2"] "0" "1" "Bw" "Bw02" "Bw12" 1
    (fun _ _ hab => hab) (by decide) (by decide) (by decide) (by decide)
    rfl rfl rfl
  refine ⟨h.1, ?_⟩
  exact h.2 ⟨fun s => s, [("pf", .dir [("u", .file "w" 0 0 true)])],
      fun _ => true, fun _ => true⟩
    [("f", ⟨"f", ["pf"], "B", ["dx", "dy"]⟩)]
    ⟨[("f", "Bw02")], [("dx", "1"), ("dy", "2")], [], [], []⟩ "f"
    rfl rfl rfl rfl rfl

/-- C2 counterexample: in the swap scenario (`c2fs1` → `c2fs2` exchanges the
contents of `x`'s and `y`'s input directories) the fingerprint of the
dependency `x` changes between the two runs, yet its dependent `f` — whose
own directory is untouched — is decided SKIP in the second run, because the
value-sorted fold of `{fpx, fpy}` is the same multiset in both runs.  The
claim requires `f` to receive BUILD whenever a dependency's fingerprint
changes. -/
theorem dependency_change_counterexample :
    (runBuild c2env1 c2reg "f" []).toOption.map RunState.decisions =
      some [("x", Decision.BUILD), ("y", Decision.BUILD), ("f", Decision.BUILD)] ∧
    (runBuild c2env2 c2reg "f" c2cache1).toOption.map RunState.decisions =
      some [("x", Decision.BUILD), ("y", Decision.BUILD), ("f", Decision.SKIP)] ∧
    (ComputeFeatureHash cSha c2fs1 c2x []).toOption ≠
      (ComputeFeatureHash cSha c2fs2 c2x []).toOption := by
  refine ⟨by decide, by decide, by decide⟩

end Builder
